import Mathlib

/-!
Shallow embedding of `lg::CircularBuffer<T, size, MutexImpl_t>` from
`src/include/leakguard/circularbuffer.hpp`.

The C++ class owns a backing array `std::array<T, size + 1>` (one spare slot),
two cursors `m_readPtr`, `m_writePtr` and a counter `m_currentSize`, all of
type `std::size_t`, plus a mutex object whose `Lock`/`Unlock` only guard the
updates of `m_currentSize`.  The default mutex (`NopMutexImpl`) is a no-op, and
in the sequential semantics modelled here every critical section is atomic
anyway, so the mutex has no observable effect and is not part of the state.

Machine integers: all the fields are `std::size_t`.  None of the arithmetic in
the class can overflow for any realistic capacity (cursors stay in
`[0, size]`, sizes in `[0, size]`, and `size_t` subtraction only happens after
the corresponding comparison), so the embedding uses `Nat` with the exact
`if`-based wraparound corrections of the source rather than `% 2^64`.
-/

namespace LG

/-- State of `lg::CircularBuffer<T, N>`: the backing array `m_buffer`
(`N + 1` slots, value-initialized), the cursors `m_readPtr` / `m_writePtr`
and the counter `m_currentSize`. -/
structure CB (α : Type) (N : Nat) where
  store : List α
  readPtr : Nat
  writePtr : Nat
  currentSize : Nat
deriving Repr, DecidableEq

/-- A freshly constructed `CircularBuffer<T, N>`: `m_buffer {}` value-initializes
the `N + 1` slots, and all three counters start at 0. -/
def mkCB (α : Type) [Inhabited α] (N : Nat) : CB α N :=
  ⟨List.replicate (N + 1) default, 0, 0, 0⟩

variable {α : Type} {N M : Nat}

/-- `GetCapacity()`: returns the template parameter `size`. -/
def GetCapacity (_ : CB α N) : Nat := N

/-- `GetCapacityBytes()`: returns `size * sizeof(T)`; the element byte size is
abstracted as a parameter. -/
def GetCapacityBytes (_ : CB α N) (sizeofT : Nat) : Nat := N * sizeofT

/-- `GetCurrentSize()`: returns `m_currentSize`. -/
def GetCurrentSize (b : CB α N) : Nat := b.currentSize

/-- `IsEmpty()`: returns `m_currentSize == 0`. -/
def IsEmpty (b : CB α N) : Bool := b.currentSize == 0

/-- The loop of `PushMany` (circularbuffer.hpp:306-319), for an input given as
a list (the element range `[begin, end)`):
`while (!(begin == end) && currentSize < size)` copy `*begin` to
`m_buffer[m_writePtr]`, advance `m_writePtr` with the wraparound correction
`if (m_writePtr > size) m_writePtr = 0`, advance the input iterator, local
`currentSize` and `pushed`.  Returns the final store, the final `m_writePtr`
and the number of elements pushed. -/
def pushLoop (N : Nat) : List α → List α → Nat → Nat → List α × Nat × Nat
  | [], store, wp, _ => (store, wp, 0)
  | x :: rest, store, wp, curSize =>
    if curSize < N then
      let store1 := store.set wp x
      let wp1 := wp + 1
      let wp2 := if wp1 > N then 0 else wp1
      let r := pushLoop N rest store1 wp2 (curSize + 1)
      (r.1, r.2.1, r.2.2 + 1)
    else (store, wp, 0)

/-- `PushMany(begin, end)` (circularbuffer.hpp:297-327): runs the copy loop
from the current state, then (if anything was pushed) adds `pushed` to
`m_currentSize` under the mutex.  Returns the new state and the count pushed. -/
def PushMany (b : CB α N) (input : List α) : CB α N × Nat :=
  let r := pushLoop N input b.store b.writePtr b.currentSize
  let pushed := r.2.2
  let newSize := if pushed > 0 then b.currentSize + pushed else b.currentSize
  (⟨r.1, b.readPtr, r.2.1, newSize⟩, pushed)

/-- `PushOne(value)` (circularbuffer.hpp:339-343): calls `PushMany` on the
one-element range `[&value, &value + 1)` and returns whether the result is
positive. -/
def PushOne (b : CB α N) (v : α) : CB α N × Bool :=
  let r := PushMany b [v]
  (r.1, decide (r.2 > 0))

/-- `Peek()` (circularbuffer.hpp:355-358): returns `m_buffer[m_readPtr]`
without any state change (possibly stale data when empty). -/
def Peek [Inhabited α] (b : CB α N) : α :=
  b.store.getD b.readPtr default

/-- `Pop()` (circularbuffer.hpp:372-389): if empty, returns `false` unchanged;
otherwise advances `m_readPtr` by one with the wraparound correction
`if (newReadPtr > size) newReadPtr = 0` and decrements `m_currentSize`. -/
def Pop (b : CB α N) : CB α N × Bool :=
  if IsEmpty b then (b, false)
  else
    let newReadPtr := b.readPtr + 1
    let newReadPtr2 := if newReadPtr > N then 0 else newReadPtr
    (⟨b.store, newReadPtr2, b.writePtr, b.currentSize - 1⟩, true)

/-- `PopMany(count)` (circularbuffer.hpp:397-413): clamps `count` to
`GetCurrentSize()`, then advances `m_readPtr` by the clamped amount with the
single correction `if (newReadPtr > size) newReadPtr -= size` — note the
source subtracts `size`, not `size + 1` — and decreases `m_currentSize`. -/
def PopMany (b : CB α N) (count : Nat) : CB α N × Nat :=
  let c := if count > GetCurrentSize b then GetCurrentSize b else count
  let newReadPtr := b.readPtr + c
  let newReadPtr2 := if newReadPtr > N then newReadPtr - N else newReadPtr
  (⟨b.store, newReadPtr2, b.writePtr, b.currentSize - c⟩, c)

/-- `PeekAndPop(out)` (circularbuffer.hpp:432-440): if non-empty, copies
`m_buffer[m_readPtr]` into `out` and returns `Pop()`; otherwise returns
`false` with `out` untouched.  The third component is the value of `out`
after the call. -/
def PeekAndPop [Inhabited α] (b : CB α N) (out : α) : CB α N × Bool × α :=
  if ¬ IsEmpty b then
    let outv := b.store.getD b.readPtr default
    let r := Pop b
    (r.1, r.2, outv)
  else (b, false, out)

/-- `Clear()` (circularbuffer.hpp:446-451): sets `m_currentSize` to 0 and
collapses `m_readPtr` onto the current `m_writePtr`. -/
def Clear (b : CB α N) : CB α N :=
  ⟨b.store, b.writePtr, b.writePtr, 0⟩

/-- The state of `CircularBuffer::ConstIterator`: the index of `m_current`
into the backing array, together with the physical bounds it captured
(`m_begin`, i.e. index 0, and `m_end`, i.e. index `N + 1`). -/
structure ConstIter where
  cur : Nat
  phyBegin : Nat
  phyEnd : Nat
deriving Repr, DecidableEq

/-- `begin()` (circularbuffer.hpp:477-480): an iterator at `&m_buffer[m_readPtr]`
with the physical array bounds. -/
def beginIter (b : CB α N) : ConstIter := ⟨b.readPtr, 0, N + 1⟩

/-- `end()` (circularbuffer.hpp:487-490): an iterator at `&m_buffer[m_writePtr]`
with the physical array bounds. -/
def endIter (b : CB α N) : ConstIter := ⟨b.writePtr, 0, N + 1⟩

/-- `ConstIterator::operator++` (circularbuffer.hpp:101-109): increments
`m_current` and wraps to `m_begin` when it reaches `m_end` (the physical end
of the backing array). -/
def iterNext (it : ConstIter) : ConstIter :=
  let c := it.cur + 1
  if c ≥ it.phyEnd then ⟨it.phyBegin, it.phyBegin, it.phyEnd⟩ else ⟨c, it.phyBegin, it.phyEnd⟩

/-- The loop of `PushMany` as instantiated by `MoveTo` with the source
buffer's `ConstIterator` range: iterator equality is `m_current` comparison
(circularbuffer.hpp:132-135), dereference reads the source store at `cur`,
increment is `iterNext`.  `M` is the destination capacity. -/
def pushFromIter [Inhabited α] (M : Nat) (srcStore : List α) (endIt it : ConstIter)
    (store : List α) (wp curSize : Nat) : List α × Nat × Nat :=
  if it.cur = endIt.cur then (store, wp, 0)
  else if h : curSize < M then
    let store1 := store.set wp (srcStore.getD it.cur default)
    let wp1 := wp + 1
    let wp2 := if wp1 > M then 0 else wp1
    let r := pushFromIter M srcStore endIt (iterNext it) store1 wp2 (curSize + 1)
    (r.1, r.2.1, r.2.2 + 1)
  else (store, wp, 0)
termination_by M - curSize

/-- `MoveTo(target)` (circularbuffer.hpp:462-470): takes `begin()`/`end()` of
the source, pushes that range into the target with the target's `PushMany`,
then pops the accepted count from the source with `PopMany`.  Returns the new
source state, the new target state, and the moved count (`PopMany`'s result). -/
def MoveTo [Inhabited α] (a : CB α N) (b : CB α M) : CB α N × CB α M × Nat :=
  let r := pushFromIter M a.store (endIter a) (beginIter a) b.store b.writePtr b.currentSize
  let pushed := r.2.2
  let newSize := if pushed > 0 then b.currentSize + pushed else b.currentSize
  let b2 : CB α M := ⟨r.1, b.readPtr, r.2.1, newSize⟩
  let pr := PopMany a pushed
  (pr.1, b2, pr.2)

/-- The `count` logically valid slots of a store of `N + 1` physical slots,
read from `start` onward with wraparound modulo `N + 1`. -/
def slots [Inhabited α] (N : Nat) (store : List α) (start count : Nat) : List α :=
  (List.range count).map fun i => store.getD ((start + i) % (N + 1)) default

/-- The logical FIFO contents of a buffer: the `m_currentSize` slots starting
at `m_readPtr`, oldest first. -/
def contents [Inhabited α] (b : CB α N) : List α :=
  slots N b.store b.readPtr b.currentSize

/-- The state invariant of `CircularBuffer<T, N>`: the backing array keeps its
`N + 1` physical slots, both cursors lie in `[0, N]`, `0 ≤ count ≤ N`, and
`m_writePtr` is `m_readPtr + m_currentSize` modulo `N + 1`. -/
def Inv (b : CB α N) : Prop :=
  b.store.length = N + 1 ∧ b.readPtr ≤ N ∧ b.writePtr ≤ N ∧
    b.currentSize ≤ N ∧ b.writePtr = (b.readPtr + b.currentSize) % (N + 1)

instance (b : CB α N) : Decidable (Inv b) := by
  unfold Inv; infer_instance

/-! ### Helper lemmas about `List.set`, `List.getD` and modular indices -/

theorem getD_set_at (l : List α) (i : Nat) (x d : α) (h : i < l.length) :
    (l.set i x).getD i d = x := by
  simp [List.getD_eq_getElem?_getD, List.getElem?_set_eq_of_lt x h]

theorem getD_set_other (l : List α) (i j : Nat) (x d : α) (h : i ≠ j) :
    (l.set i x).getD j d = l.getD j d := by
  simp [List.getD_eq_getElem?_getD, List.getElem?_set_ne h]

/-- Two offsets below the modulus that differ give different residues from the
same base. -/
theorem mod_shift_ne {m : Nat} (start i c : Nat) (hi : i < c) (hc : c < m) :
    (start + i) % m ≠ (start + c) % m := by
  intro he
  have h2 : i ≡ c [MOD m] := Nat.ModEq.add_left_cancel' start he
  have h3 : i % m = c % m := h2
  rw [Nat.mod_eq_of_lt (lt_trans hi hc), Nat.mod_eq_of_lt hc] at h3
  omega

/-- The cursor correction `if (ptr > size) ptr = 0` after an increment is
addition modulo `N + 1`, for a cursor in range. -/
theorem incWrap_eq_mod {N : Nat} (w : Nat) (hw : w ≤ N) :
    (if w + 1 > N then 0 else w + 1) = (w + 1) % (N + 1) := by
  by_cases h : w + 1 > N
  · have hwN : w = N := by omega
    subst hwN
    simp [if_pos h, Nat.mod_self]
  · rw [if_neg h, Nat.mod_eq_of_lt (by omega)]

/-! ### Lemmas about `slots` -/

theorem slots_length [Inhabited α] (N : Nat) (s : List α) (start c : Nat) :
    (slots N s start c).length = c := by
  simp [slots]

theorem slots_zero [Inhabited α] (N : Nat) (s : List α) (start : Nat) :
    slots N s start 0 = [] := rfl

theorem slots_succ [Inhabited α] (N : Nat) (s : List α) (start c : Nat) :
    slots N s start (c + 1) =
      slots N s start c ++ [s.getD ((start + c) % (N + 1)) default] := by
  simp [slots, List.range_succ]

theorem slots_cons [Inhabited α] (N : Nat) (s : List α) (start c : Nat) :
    slots N s start (c + 1) =
      s.getD (start % (N + 1)) default :: slots N s ((start + 1) % (N + 1)) c := by
  unfold slots
  rw [List.range_succ_eq_map]
  simp only [List.map_cons, List.map_map, Nat.add_zero]
  congr 1
  apply List.map_congr_left
  intro i _
  simp only [Function.comp]
  rw [Nat.mod_add_mod]
  have h : start + 1 + i = start + Nat.succ i := by omega
  rw [h]

/-- Writing at offset `c` (the write cursor) does not change the `c` valid
slots before it. -/
theorem slots_set_outside [Inhabited α] (N : Nat) (s : List α) (start c : Nat) (x : α)
    (hc : c < N + 1) :
    slots N (s.set ((start + c) % (N + 1)) x) start c = slots N s start c := by
  unfold slots
  apply List.map_congr_left
  intro i hi
  exact getD_set_other _ _ _ _ _
    (Ne.symm (mod_shift_ne start i c (List.mem_range.mp hi) hc))

/-! ### The `PushMany` loop -/

/-- The count returned by the push loop: it pushes until the input runs out or
the buffer is full, so `min input.length (N - curSize)` elements. -/
theorem pushLoop_pushed (N : Nat) (input : List α) :
    ∀ (store : List α) (wp curSize : Nat),
      (pushLoop N input store wp curSize).2.2 = min input.length (N - curSize) := by
  induction input with
  | nil => intro store wp c; simp [pushLoop]
  | cons x rest ih =>
    intro store wp c
    by_cases hlt : c < N
    · simp only [pushLoop, if_pos hlt, ih, List.length_cons]
      omega
    · simp only [pushLoop, if_neg hlt]
      omega

/-- Main specification of the push loop, called at the write cursor
`(rp + curSize) % (N + 1)`: it preserves the store's length, leaves the
`curSize` valid slots intact, appends the accepted prefix of the input after
them, and advances the write cursor by the accepted count modulo `N + 1`. -/
theorem pushLoop_spec [Inhabited α] (N : Nat) (input : List α) :
    ∀ (store : List α) (rp curSize : Nat),
      store.length = N + 1 → curSize ≤ N →
      (pushLoop N input store ((rp + curSize) % (N + 1)) curSize).1.length = N + 1 ∧
      (pushLoop N input store ((rp + curSize) % (N + 1)) curSize).2.1
          = (rp + curSize + min input.length (N - curSize)) % (N + 1) ∧
      slots N (pushLoop N input store ((rp + curSize) % (N + 1)) curSize).1 rp
          (curSize + min input.length (N - curSize))
        = slots N store rp curSize ++ input.take (min input.length (N - curSize)) := by
  induction input with
  | nil =>
    intro store rp c hlen hc
    simp [pushLoop, hlen]
  | cons x rest ih =>
    intro store rp c hlen hc
    by_cases hlt : c < N
    · have hwple : (rp + c) % (N + 1) ≤ N := by
        have := Nat.mod_lt (rp + c) (y := N + 1) (by omega)
        omega
      have hwp2 : (if (rp + c) % (N + 1) + 1 > N then 0 else (rp + c) % (N + 1) + 1)
          = (rp + (c + 1)) % (N + 1) := by
        rw [incWrap_eq_mod _ hwple, Nat.mod_add_mod]
        rfl
      have hlen1 : (store.set ((rp + c) % (N + 1)) x).length = N + 1 := by
        rw [List.length_set, hlen]
      obtain ⟨ihl, ihw, ihs⟩ := ih (store.set ((rp + c) % (N + 1)) x) rp (c + 1) hlen1 (by omega)
      have hmin : min (rest.length + 1) (N - c) = min rest.length (N - (c + 1)) + 1 := by
        omega
      simp only [pushLoop, if_pos hlt, hwp2, List.length_cons, hmin]
      refine ⟨ihl, ?_, ?_⟩
      · rw [ihw]; congr 1; omega
      · have hc1 : c + (min rest.length (N - (c + 1)) + 1)
            = (c + 1) + min rest.length (N - (c + 1)) := by omega
        rw [hc1, ihs, slots_succ, slots_set_outside _ _ _ _ _ (by omega),
          getD_set_at _ _ _ _ (by rw [hlen]; exact Nat.mod_lt _ (by omega)),
          List.take_succ_cons, List.append_assoc]
        rfl
    · have hcN : c = N := by omega
      subst hcN
      simp [pushLoop, if_neg hlt, hlen]

/-! ### Operation-level specifications under the invariant -/

theorem size_update_eq (c p : Nat) : (if p > 0 then c + p else c) = c + p := by
  rcases Nat.eq_zero_or_pos p with h | h
  · subst h; simp
  · simp [h]

/-- `PushMany` under the invariant: accepts `min input.length (N - count)`
elements, preserves the invariant and the read cursor, increases the count by
the accepted amount, and appends exactly the accepted prefix of the input to
the FIFO contents. -/
theorem PushMany_spec [Inhabited α] {N : Nat} (b : CB α N) (input : List α)
    (hInv : Inv b) :
    (PushMany b input).2 = min input.length (N - b.currentSize) ∧
    Inv (PushMany b input).1 ∧
    (PushMany b input).1.readPtr = b.readPtr ∧
    (PushMany b input).1.currentSize = b.currentSize + (PushMany b input).2 ∧
    contents (PushMany b input).1 = contents b ++ input.take (PushMany b input).2 := by
  obtain ⟨hlen, hrp, hwple, hc, hcur⟩ := hInv
  have hp := pushLoop_pushed (N := N) input b.store b.writePtr b.currentSize
  have hspec := pushLoop_spec N input b.store b.readPtr b.currentSize hlen hc
  rw [← hcur] at hspec
  obtain ⟨hl, hw, hs⟩ := hspec
  simp only [PushMany, size_update_eq]
  refine ⟨hp, ⟨hl, hrp, ?_, ?_, ?_⟩, trivial, trivial, ?_⟩
  · dsimp only
    rw [hw]
    exact Nat.le_of_lt_succ (Nat.mod_lt _ (by omega))
  · dsimp only
    rw [hp]
    omega
  · dsimp only
    rw [hw, hp, ← Nat.add_assoc]
  · dsimp only [contents]
    rw [hp, hs]

/-- `Pop` under the invariant, on a non-empty buffer: succeeds, preserves the
invariant, leaves the write cursor and the store unchanged, decrements the
count, and removes exactly the head of the FIFO contents (the `Peek` value). -/
theorem Pop_spec [Inhabited α] {N : Nat} (b : CB α N)
    (hInv : Inv b) (hne : b.currentSize ≠ 0) :
    (Pop b).2 = true ∧
    Inv (Pop b).1 ∧
    (Pop b).1.writePtr = b.writePtr ∧
    (Pop b).1.store = b.store ∧
    (Pop b).1.currentSize = b.currentSize - 1 ∧
    contents b = Peek b :: contents (Pop b).1 := by
  obtain ⟨hlen, hrp, hwple, hc, hcur⟩ := hInv
  have hemp : IsEmpty b = false := by
    simp [IsEmpty, hne]
  simp only [Pop, hemp, Bool.false_eq_true, if_false]
  have hwrap : (if b.readPtr + 1 > N then 0 else b.readPtr + 1)
      = (b.readPtr + 1) % (N + 1) := incWrap_eq_mod _ hrp
  simp only [hwrap]
  refine ⟨trivial, ⟨hlen, ?_, hwple, ?_, ?_⟩, trivial, trivial, trivial, ?_⟩
  · dsimp only
    exact Nat.le_of_lt_succ (Nat.mod_lt _ (by omega))
  · dsimp only
    omega
  · dsimp only
    rw [Nat.mod_add_mod, hcur]
    congr 1
    omega
  · obtain ⟨c, hcsucc⟩ : ∃ c, b.currentSize = c + 1 :=
      ⟨b.currentSize - 1, by omega⟩
    simp only [contents, hcsucc, Nat.add_sub_cancel]
    rw [slots_cons, Nat.mod_eq_of_lt (show b.readPtr < N + 1 by omega)]
    rfl

/-- `PeekAndPop` on a non-empty buffer: delivers the `Peek` value and behaves
like `Pop` on the state. -/
theorem PeekAndPop_spec [Inhabited α] {N : Nat} (b : CB α N) (out : α)
    (hne : b.currentSize ≠ 0) :
    PeekAndPop b out = ((Pop b).1, (Pop b).2, Peek b) := by
  have hemp : IsEmpty b = false := by
    simp [IsEmpty, hne]
  simp [PeekAndPop, Peek, hemp]

/-! ### Fresh buffers, draining and batched pushing -/

theorem Inv_mkCB (α : Type) [Inhabited α] (N : Nat) : Inv (mkCB α N) := by
  refine ⟨?_, ?_, ?_, ?_, ?_⟩ <;> simp [mkCB]

theorem contents_mkCB (α : Type) [Inhabited α] (N : Nat) : contents (mkCB α N) = [] := rfl

/-- Draining a buffer by `fuel` successive `PeekAndPop` calls, collecting the
delivered values (stopping early on failure). -/
def popAll [Inhabited α] : CB α N → Nat → List α
  | _, 0 => []
  | b, fuel + 1 =>
    let r := PeekAndPop b default
    if r.2.1 then r.2.2 :: popAll r.1 fuel else []

/-- Draining a buffer completely returns exactly its FIFO contents. -/
theorem popAll_contents [Inhabited α] {N : Nat} :
    ∀ (fuel : Nat) (b : CB α N), Inv b → b.currentSize = fuel →
      popAll b fuel = contents b := by
  intro fuel
  induction fuel with
  | zero =>
    intro b _ hz
    simp [popAll, contents, hz, slots_zero]
  | succ f ih =>
    intro b hInv hsz
    have hne : b.currentSize ≠ 0 := by omega
    obtain ⟨hok, hInv2, _, _, hsz2, hcont⟩ := Pop_spec b hInv hne
    have hpp := PeekAndPop_spec b default hne
    simp only [popAll, hpp, hok, if_true]
    rw [ih (Pop b).1 hInv2 (by omega), hcont]

/-- Pushing a list of batches in order, each with `PushMany`. -/
def pushBatches [Inhabited α] (b : CB α N) : List (List α) → CB α N
  | [] => b
  | xs :: rest => pushBatches (PushMany b xs).1 rest

/-- Pushing batches whose total length fits in the remaining capacity accepts
every element, appending the concatenation of the batches to the contents. -/
theorem pushBatches_spec [Inhabited α] {N : Nat} :
    ∀ (bs : List (List α)) (b : CB α N), Inv b →
      b.currentSize + bs.flatten.length ≤ N →
      Inv (pushBatches b bs) ∧
      (pushBatches b bs).currentSize = b.currentSize + bs.flatten.length ∧
      contents (pushBatches b bs) = contents b ++ bs.flatten := by
  intro bs
  induction bs with
  | nil =>
    intro b hInv _
    simp [pushBatches, hInv]
  | cons xs rest ih =>
    intro b hInv hfit
    have hjoin : (xs :: rest).flatten = xs ++ rest.flatten := by simp
    rw [hjoin] at hfit ⊢
    obtain ⟨hp, hInv2, _, hsz2, hcont2⟩ := PushMany_spec b xs hInv
    have hfull : (PushMany b xs).2 = xs.length := by
      rw [hp]
      simp only [List.length_append] at hfit
      omega
    obtain ⟨ih1, ih2, ih3⟩ := ih (PushMany b xs).1 hInv2 (by
      rw [hsz2, hfull]
      simp only [List.length_append] at hfit
      omega)
    simp only [pushBatches]
    refine ⟨ih1, ?_, ?_⟩
    · rw [ih2, hsz2, hfull]
      simp only [List.length_append]
      omega
    · rw [ih3, hcont2, hfull, List.take_length, List.append_assoc]

/-! ### Interleaved push/pop runs (for the FIFO claims) -/

/-- The push/pop operations named by the wraparound-correctness claim:
`PushMany`, `PushOne`, `Pop` and `PeekAndPop`. -/
inductive PPOp (α : Type) where
  | pushMany (xs : List α)
  | pushOne (x : α)
  | pop
  | peekAndPop
deriving Repr, DecidableEq

/-- Total number of elements offered to the buffer by a sequence of
operations. -/
def totalPushed : List (PPOp α) → Nat
  | [] => 0
  | .pushMany xs :: rest => xs.length + totalPushed rest
  | .pushOne _ :: rest => 1 + totalPushed rest
  | .pop :: rest => totalPushed rest
  | .peekAndPop :: rest => totalPushed rest

/-- Running a sequence of operations on a buffer.  Returns the final buffer,
the list of elements the buffer accepted (in push order), and the list of
elements it removed (in pop order: for a successful `Pop` the element at the
read cursor — the `Peek` value — is the one removed; for a successful
`PeekAndPop` it is the delivered value). -/
def runPP [Inhabited α] : CB α N → List (PPOp α) → CB α N × List α × List α
  | b, [] => (b, [], [])
  | b, .pushMany xs :: rest =>
    let r := PushMany b xs
    let k := runPP r.1 rest
    (k.1, xs.take r.2 ++ k.2.1, k.2.2)
  | b, .pushOne x :: rest =>
    let r := PushOne b x
    let k := runPP r.1 rest
    (k.1, (if r.2 then [x] else []) ++ k.2.1, k.2.2)
  | b, .pop :: rest =>
    let r := Pop b
    let k := runPP r.1 rest
    (k.1, k.2.1, (if r.2 then [Peek b] else []) ++ k.2.2)
  | b, .peekAndPop :: rest =>
    let r := PeekAndPop b default
    let k := runPP r.1 rest
    (k.1, k.2.1, (if r.2.1 then [r.2.2] else []) ++ k.2.2)

/-- `PushOne` accepts the element exactly when `PushMany [x]` accepts it. -/
theorem PushOne_accepted [Inhabited α] (b : CB α N) (x : α) :
    (if (PushOne b x).2 then [x] else []) = [x].take (PushMany b [x]).2 := by
  have hp := pushLoop_pushed (N := N) [x] b.store b.writePtr b.currentSize
  simp only [PushOne, PushMany] at hp ⊢
  rcases Nat.eq_zero_or_pos ((pushLoop N [x] b.store b.writePtr b.currentSize).2.2) with h | h
  · simp [h]
  · have h1 : (pushLoop N [x] b.store b.writePtr b.currentSize).2.2 = 1 := by
      rw [hp] at h ⊢
      simp only [List.length_cons, List.length_nil] at h ⊢
      omega
    simp [h1]

/-- Simulation invariant for interleaved runs: the removed elements followed
by what is still in the buffer are exactly the initial contents followed by
the accepted elements — FIFO order, nothing lost, nothing overwritten. -/
theorem runPP_fifo [Inhabited α] {N : Nat} :
    ∀ (ops : List (PPOp α)) (b : CB α N), Inv b →
      Inv (runPP b ops).1 ∧
      (runPP b ops).2.2 ++ contents (runPP b ops).1
        = contents b ++ (runPP b ops).2.1 := by
  intro ops
  induction ops with
  | nil => intro b hInv; simpa [runPP] using hInv
  | cons op rest ih =>
    intro b hInv
    cases op with
    | pushMany xs =>
      obtain ⟨_, hInv2, _, _, hcont⟩ := PushMany_spec b xs hInv
      obtain ⟨ih1, ih2⟩ := ih (PushMany b xs).1 hInv2
      simp only [runPP]
      refine ⟨ih1, ?_⟩
      rw [ih2, hcont, List.append_assoc]
    | pushOne x =>
      obtain ⟨_, hInv2, _, _, hcont⟩ := PushMany_spec b [x] hInv
      have hst : (PushOne b x).1 = (PushMany b [x]).1 := rfl
      obtain ⟨ih1, ih2⟩ := ih (PushOne b x).1 (hst ▸ hInv2)
      simp only [runPP]
      refine ⟨ih1, ?_⟩
      rw [ih2, hst, hcont, PushOne_accepted, List.append_assoc]
    | pop =>
      rcases Nat.eq_zero_or_pos b.currentSize with hz | hpos
      · have hemp : IsEmpty b = true := by simp [IsEmpty, hz]
        have hPop : Pop b = (b, false) := by simp [Pop, hemp]
        obtain ⟨ih1, ih2⟩ := ih b hInv
        simp only [runPP, hPop]
        exact ⟨ih1, by simpa using ih2⟩
      · obtain ⟨hok, hInv2, _, _, _, hcont⟩ := Pop_spec b hInv (by omega)
        obtain ⟨ih1, ih2⟩ := ih (Pop b).1 hInv2
        simp only [runPP, hok, if_true]
        refine ⟨ih1, ?_⟩
        rw [List.append_assoc]
        simp only [List.singleton_append, hcont]
        rw [ih2, List.cons_append]
    | peekAndPop =>
      rcases Nat.eq_zero_or_pos b.currentSize with hz | hpos
      · have hemp : IsEmpty b = true := by simp [IsEmpty, hz]
        have hPP : PeekAndPop b default = (b, false, default) := by
          simp [PeekAndPop, hemp]
        obtain ⟨ih1, ih2⟩ := ih b hInv
        simp only [runPP, hPP]
        exact ⟨ih1, by simpa using ih2⟩
      · obtain ⟨hok, hInv2, _, _, _, hcont⟩ := Pop_spec b hInv (by omega)
        have hPP := PeekAndPop_spec b default (by omega)
        obtain ⟨ih1, ih2⟩ := ih (Pop b).1 hInv2
        simp only [runPP, hPP, hok, if_true]
        refine ⟨ih1, ?_⟩
        rw [List.append_assoc]
        simp only [List.singleton_append, hcont]
        rw [ih2, List.cons_append]

/-! ### Claim theorems: C1 and C7 -/

/-- Claim C1 (FIFO order): for every sequence of values pushed into a freshly
constructed buffer via `PushMany`/`PushOne` (a list of batches; a `PushOne` is
the batch `[v]`, cf. circularbuffer.hpp:339-343) whose total length does not
exceed the capacity, draining the buffer in full via `PeekAndPop` returns the
pushed values in the same order. -/
theorem C1_fifo_order {α : Type} [Inhabited α] (N : Nat) (batches : List (List α))
    (h : batches.flatten.length ≤ N) :
    popAll (pushBatches (mkCB α N) batches)
        (GetCurrentSize (pushBatches (mkCB α N) batches))
      = batches.flatten := by
  obtain ⟨hInv, hsz, hcont⟩ := pushBatches_spec batches (mkCB α N) (Inv_mkCB α N)
    (by simpa [mkCB] using h)
  rw [GetCurrentSize, popAll_contents _ _ hInv rfl, hcont, contents_mkCB,
    List.nil_append]

/-- Witness for C1 at capacity 3 with batches `[[1,2],[3]]`. -/
theorem C1_fifo_order_witness :
    ([[1, 2], [3]] : List (List Nat)).flatten.length ≤ 3 ∧
    popAll (pushBatches (mkCB Nat 3) [[1, 2], [3]])
        (GetCurrentSize (pushBatches (mkCB Nat 3) [[1, 2], [3]]))
      = [[1, 2], [3]].flatten :=
  ⟨by decide, C1_fifo_order 3 [[1, 2], [3]] (by decide)⟩

/-- Claim C7 (wraparound correctness): for every interleaved sequence of
pushes (`PushMany`/`PushOne`) and pops (`Pop`/`PeekAndPop`) from a fresh
buffer whose total pushed count exceeds the capacity (forcing cursor
wraparound), the removed elements followed by the elements still stored are
exactly the accepted elements in push order — FIFO, with no accepted element
overwritten or lost.  (The proof does not need the capacity hypothesis; the
property holds for every sequence.) -/
theorem C7_wraparound_fifo {α : Type} [Inhabited α] (N : Nat)
    (ops : List (PPOp α)) (_hwrap : GetCapacity (mkCB α N) < totalPushed ops) :
    (runPP (mkCB α N) ops).2.2 ++ contents (runPP (mkCB α N) ops).1
      = (runPP (mkCB α N) ops).2.1 := by
  have h := (runPP_fifo ops (mkCB α N) (Inv_mkCB α N)).2
  rwa [contents_mkCB, List.nil_append] at h

/-- Witness for C7: capacity 1, five operations pushing 3 > 1 elements in
total, with both cursors wrapping. -/
theorem C7_wraparound_fifo_witness :
    GetCapacity (mkCB Nat 1) < totalPushed
        [PPOp.pushMany [5, 6], PPOp.pop, PPOp.pushOne 7,
         PPOp.peekAndPop, PPOp.peekAndPop] ∧
    (runPP (mkCB Nat 1)
          [PPOp.pushMany [5, 6], PPOp.pop, PPOp.pushOne 7,
           PPOp.peekAndPop, PPOp.peekAndPop]).2.2
        ++ contents (runPP (mkCB Nat 1)
          [PPOp.pushMany [5, 6], PPOp.pop, PPOp.pushOne 7,
           PPOp.peekAndPop, PPOp.peekAndPop]).1
      = (runPP (mkCB Nat 1)
          [PPOp.pushMany [5, 6], PPOp.pop, PPOp.pushOne 7,
           PPOp.peekAndPop, PPOp.peekAndPop]).2.1 :=
  ⟨by decide, C7_wraparound_fifo 1 _ (by decide)⟩

/-! ### All single-buffer operations (for the capacity-ceiling claim) -/

/-- Every state-changing single-buffer public operation. -/
inductive AnyOp (α : Type) where
  | pushMany (xs : List α)
  | pushOne (x : α)
  | pop
  | popMany (n : Nat)
  | peekAndPop
  | clear
deriving Repr, DecidableEq

/-- Apply one public operation to the buffer state. -/
def applyAny [Inhabited α] (b : CB α N) : AnyOp α → CB α N
  | .pushMany xs => (PushMany b xs).1
  | .pushOne x => (PushOne b x).1
  | .pop => (Pop b).1
  | .popMany n => (PopMany b n).1
  | .peekAndPop => (PeekAndPop b default).1
  | .clear => Clear b

/-- Run a sequence of public operations. -/
def runAny [Inhabited α] (b : CB α N) : List (AnyOp α) → CB α N
  | [] => b
  | op :: rest => runAny (applyAny b op) rest

/-- Every public operation keeps `m_currentSize ≤ N` — even on states that do
not satisfy the full cursor invariant. -/
theorem applyAny_size_le [Inhabited α] (b : CB α N) (op : AnyOp α)
    (h : b.currentSize ≤ N) : (applyAny b op).currentSize ≤ N := by
  cases op with
  | pushMany xs =>
    have hp := pushLoop_pushed (N := N) xs b.store b.writePtr b.currentSize
    simp only [applyAny, PushMany, size_update_eq]
    rw [hp]
    omega
  | pushOne x =>
    have hp := pushLoop_pushed (N := N) [x] b.store b.writePtr b.currentSize
    simp only [applyAny, PushOne, PushMany, size_update_eq]
    rw [hp]
    simp only [List.length_cons, List.length_nil]
    omega
  | pop =>
    simp only [applyAny, Pop]
    rcases hemp : IsEmpty b with hf | ht
    · simp [hemp]
      omega
    · simp [hemp]
      omega
  | popMany n =>
    simp only [applyAny, PopMany, GetCurrentSize]
    by_cases hgt : n > b.currentSize
    · simp [hgt]
    · simp [hgt]
      omega
  | peekAndPop =>
    simp only [applyAny, PeekAndPop, Pop]
    rcases hemp : IsEmpty b with hf | ht
    · simp [hemp]
      omega
    · simp [hemp]
      omega
  | clear => simp [applyAny, Clear]

theorem runAny_size_le [Inhabited α] :
    ∀ (ops : List (AnyOp α)) (b : CB α N), b.currentSize ≤ N →
      (runAny b ops).currentSize ≤ N := by
  intro ops
  induction ops with
  | nil => intro b h; simpa [runAny] using h
  | cons op rest ih =>
    intro b h
    simpa only [runAny] using ih (applyAny b op) (applyAny_size_le b op h)

/-- The `MoveTo` push loop accepts at most the free space of the target. -/
theorem pushFromIter_pushed_le [Inhabited α] (M : Nat) (srcStore : List α)
    (endIt : ConstIter) :
    ∀ (fuel : Nat) (it : ConstIter) (store : List α) (wp c : Nat), M - c ≤ fuel →
      (pushFromIter M srcStore endIt it store wp c).2.2 ≤ M - c := by
  intro fuel
  induction fuel with
  | zero =>
    intro it store wp c hf
    rw [pushFromIter]
    rcases heq : decide (it.cur = endIt.cur) with hf2 | ht2
    · have : ¬ it.cur = endIt.cur := of_decide_eq_false heq
      rcases Nat.lt_or_ge c M with hlt | hge
      · omega
      · simp [this, Nat.not_lt_of_le hge]
    · have : it.cur = endIt.cur := of_decide_eq_true heq
      simp [this]
  | succ f ih =>
    intro it store wp c hf
    rw [pushFromIter]
    by_cases hend : it.cur = endIt.cur
    · simp [hend]
    · simp only [hend, if_false]
      by_cases hlt : c < M
      · simp only [hlt, dif_pos]
        have := ih (iterNext it)
          (store.set wp (srcStore.getD it.cur default))
          (if wp + 1 > M then 0 else wp + 1) (c + 1) (by omega)
        omega
      · simp [hlt]

/-- `MoveTo` keeps both buffers' sizes within their capacities. -/
theorem MoveTo_size_le [Inhabited α] {N M : Nat} (a : CB α N) (b : CB α M)
    (ha : a.currentSize ≤ N) (hb : b.currentSize ≤ M) :
    (MoveTo a b).1.currentSize ≤ N ∧ (MoveTo a b).2.1.currentSize ≤ M := by
  have hp := pushFromIter_pushed_le M a.store (endIter a)
    (M - b.currentSize) (beginIter a) b.store b.writePtr b.currentSize (by omega)
  constructor
  · simp only [MoveTo, PopMany, GetCurrentSize]
    split <;> omega
  · simp only [MoveTo, size_update_eq]
    omega

/-- Claim C4 (capacity ceiling): pushing `N + k` elements (`k > 0`) into any
empty buffer — any invariant-satisfying state with `GetCurrentSize() = 0`,
its cursors at arbitrary positions — accepts exactly `N` and rejects `k`, the
accepted elements being the first `N` of the input (nothing is overwritten);
and `GetCurrentSize` never exceeds `GetCapacity` after any sequence of public
operations (with `MoveTo` covered on both of its buffers by the last
conjunct). -/
theorem C4_capacity_ceiling {α : Type} [Inhabited α] {N : Nat} (k : Nat)
    (input : List α) (b : CB α N) (hInv : Inv b) (hbe : GetCurrentSize b = 0)
    (hk : 0 < k) (hlen : input.length = N + k) (ops : List (AnyOp α)) :
    (PushMany b input).2 = GetCapacity b ∧
    input.length - (PushMany b input).2 = k ∧
    contents (PushMany b input).1 = input.take N ∧
    GetCurrentSize (runAny (mkCB α N) ops) ≤ GetCapacity (runAny (mkCB α N) ops) ∧
    (∀ (N2 M2 : Nat) (a : CB α N2) (t : CB α M2),
      GetCurrentSize a ≤ GetCapacity a → GetCurrentSize t ≤ GetCapacity t →
      GetCurrentSize (MoveTo a t).1 ≤ GetCapacity (MoveTo a t).1 ∧
      GetCurrentSize (MoveTo a t).2.1 ≤ GetCapacity (MoveTo a t).2.1) := by
  obtain ⟨hp, _, _, _, hcont⟩ := PushMany_spec b input hInv
  simp only [GetCurrentSize] at hbe
  have hpN : (PushMany b input).2 = N := by
    rw [hp, hlen, hbe, Nat.sub_zero]
    omega
  have hcontb : contents b = [] := by
    unfold contents
    rw [hbe]
    exact slots_zero N b.store b.readPtr
  refine ⟨hpN, by omega, ?_, ?_, ?_⟩
  · rw [hcont, hcontb, List.nil_append, hpN]
  · exact runAny_size_le ops (mkCB α N) (by simp [mkCB])
  · intro N2 M2 a t ha ht
    exact MoveTo_size_le a t ha ht

/-- Witness for C4: an empty capacity-2 buffer whose cursors sit at 1 (a fresh
buffer after `PushOne 9; Pop()`), input `[4,5,6]` (k = 1), and a sample
operation sequence. -/
theorem C4_capacity_ceiling_witness :
    Inv (Pop (PushOne (mkCB Nat 2) 9).1).1 ∧
    GetCurrentSize (Pop (PushOne (mkCB Nat 2) 9).1).1 = 0 ∧
    0 < 1 ∧ ([4, 5, 6] : List Nat).length = 2 + 1 ∧
    ((PushMany (Pop (PushOne (mkCB Nat 2) 9).1).1 [4, 5, 6]).2
        = GetCapacity (Pop (PushOne (mkCB Nat 2) 9).1).1 ∧
     ([4, 5, 6] : List Nat).length
        - (PushMany (Pop (PushOne (mkCB Nat 2) 9).1).1 [4, 5, 6]).2 = 1 ∧
     contents (PushMany (Pop (PushOne (mkCB Nat 2) 9).1).1 [4, 5, 6]).1
        = [4, 5, 6].take 2 ∧
     GetCurrentSize (runAny (mkCB Nat 2)
         [AnyOp.pushMany [1, 2, 3], AnyOp.popMany 5, AnyOp.clear,
          AnyOp.pushOne 9, AnyOp.pop, AnyOp.peekAndPop])
       ≤ GetCapacity (runAny (mkCB Nat 2)
         [AnyOp.pushMany [1, 2, 3], AnyOp.popMany 5, AnyOp.clear,
          AnyOp.pushOne 9, AnyOp.pop, AnyOp.peekAndPop]) ∧
     (∀ (N2 M2 : Nat) (a : CB Nat N2) (t : CB Nat M2),
       GetCurrentSize a ≤ GetCapacity a → GetCurrentSize t ≤ GetCapacity t →
       GetCurrentSize (MoveTo a t).1 ≤ GetCapacity (MoveTo a t).1 ∧
       GetCurrentSize (MoveTo a t).2.1 ≤ GetCapacity (MoveTo a t).2.1)) :=
  ⟨by decide, by decide, by decide, by decide,
    C4_capacity_ceiling 1 [4, 5, 6] (Pop (PushOne (mkCB Nat 2) 9).1).1
      (by decide) (by decide) (by decide) (by decide)
      [AnyOp.pushMany [1, 2, 3], AnyOp.popMany 5, AnyOp.clear,
       AnyOp.pushOne 9, AnyOp.pop, AnyOp.peekAndPop]⟩

/-! ### Empty-pop safety, PushOne/PushMany equivalence, frame conditions -/

/-- Claim C8 (empty-pop safety): on an empty buffer `Pop` fails and changes
nothing, and `PeekAndPop` fails and leaves the output location untouched. -/
theorem C8_empty_pop_safety {α : Type} [Inhabited α] {N : Nat} (b : CB α N)
    (out : α) (h : GetCurrentSize b = 0) :
    Pop b = (b, false) ∧ PeekAndPop b out = (b, false, out) := by
  have hemp : IsEmpty b = true := by
    simp only [GetCurrentSize] at h
    simp [IsEmpty, h]
  constructor
  · simp [Pop, hemp]
  · simp [PeekAndPop, hemp]

/-- Witness for C8 at a fresh capacity-2 buffer. -/
theorem C8_empty_pop_safety_witness :
    GetCurrentSize (mkCB Nat 2) = 0 ∧
    (Pop (mkCB Nat 2) = (mkCB Nat 2, false) ∧
     PeekAndPop (mkCB Nat 2) 42 = (mkCB Nat 2, false, 42)) :=
  ⟨by decide, C8_empty_pop_safety (mkCB Nat 2) 42 (by decide)⟩

/-- Claim C9 (PushOne/PushMany equivalence): `PushOne v` yields exactly the
state of `PushMany [v]`, and succeeds iff that `PushMany` returns 1, iff the
buffer was not full. -/
theorem C9_pushone_equiv {α : Type} [Inhabited α] {N : Nat} (b : CB α N) (v : α) :
    (PushOne b v).1 = (PushMany b [v]).1 ∧
    ((PushOne b v).2 = true ↔ (PushMany b [v]).2 = 1) ∧
    ((PushOne b v).2 = true ↔ GetCurrentSize b < GetCapacity b) := by
  have hp := pushLoop_pushed (N := N) [v] b.store b.writePtr b.currentSize
  simp only [List.length_cons, List.length_nil] at hp
  refine ⟨rfl, ?_, ?_⟩
  · simp only [PushOne, PushMany, decide_eq_true_eq]
    rw [hp]
    omega
  · simp only [PushOne, PushMany, GetCurrentSize, GetCapacity, decide_eq_true_eq]
    rw [hp]
    omega

/-- The embedding of a `const` member function: it returns its result and
leaves the state untouched (the method body contains no assignment).  One
such wrapper per query named by the frame-effect claim. -/
def PeekCall [Inhabited α] (b : CB α N) : α × CB α N :=
  (b.store.getD b.readPtr default, b)

/-- State-transformer form of `GetCapacity()`. -/
def GetCapacityCall (b : CB α N) : Nat × CB α N := (N, b)

/-- State-transformer form of `GetCapacityBytes()`. -/
def GetCapacityBytesCall (b : CB α N) (sizeofT : Nat) : Nat × CB α N :=
  (N * sizeofT, b)

/-- State-transformer form of `GetCurrentSize()`. -/
def GetCurrentSizeCall (b : CB α N) : Nat × CB α N := (b.currentSize, b)

/-- State-transformer form of `IsEmpty()`. -/
def IsEmptyCall (b : CB α N) : Bool × CB α N := (b.currentSize == 0, b)

/-- State-transformer form of `begin()`. -/
def beginCall (b : CB α N) : ConstIter × CB α N := (⟨b.readPtr, 0, N + 1⟩, b)

/-- State-transformer form of `end()`. -/
def endCall (b : CB α N) : ConstIter × CB α N := (⟨b.writePtr, 0, N + 1⟩, b)

/-- Claim C10 (frame conditions): pushes never modify the read cursor, pops
never modify the write cursor (nor the store), and all the `const` query
member functions modify no field at all. -/
theorem C10_frame_conditions {α : Type} [Inhabited α] {N : Nat} (b : CB α N)
    (xs : List α) (v : α) (n sz : Nat) :
    (PushMany b xs).1.readPtr = b.readPtr ∧
    (PushOne b v).1.readPtr = b.readPtr ∧
    (Pop b).1.writePtr = b.writePtr ∧
    (Pop b).1.store = b.store ∧
    (PopMany b n).1.writePtr = b.writePtr ∧
    (PopMany b n).1.store = b.store ∧
    (PeekCall b).2 = b ∧
    (GetCapacityCall b).2 = b ∧
    (GetCapacityBytesCall b sz).2 = b ∧
    (GetCurrentSizeCall b).2 = b ∧
    (IsEmptyCall b).2 = b ∧
    (beginCall b).2 = b ∧
    (endCall b).2 = b := by
  refine ⟨rfl, rfl, ?_, ?_, rfl, rfl, rfl, rfl, rfl, rfl, rfl, rfl, rfl⟩
  · simp only [Pop]
    rcases hemp : IsEmpty b with hf | ht <;> simp [hemp]
  · simp only [Pop]
    rcases hemp : IsEmpty b with hf | ht <;> simp [hemp]

/-! ### MoveTo: the iterator loop agrees with the list loop -/

/-- Walking a `ConstIterator` range of length `k` through the `PushMany` loop
is the same as pushing the list of the `k` slots it traverses: the iterator
starts at `cur`, wraps at the physical end of the `srcN + 1`-slot array, and
stops at the snapshotted end cursor `(cur + k) % (srcN + 1)`. -/
theorem pushFromIter_eq_pushLoop [Inhabited α] (M srcN : Nat) (srcStore : List α) :
    ∀ (k cur : Nat) (store : List α) (wp c : Nat),
      cur ≤ srcN → k ≤ srcN →
      pushFromIter M srcStore ⟨(cur + k) % (srcN + 1), 0, srcN + 1⟩
          ⟨cur, 0, srcN + 1⟩ store wp c
        = pushLoop M (slots srcN srcStore cur k) store wp c := by
  intro k
  induction k with
  | zero =>
    intro cur store wp c hcur _
    rw [pushFromIter]
    simp [Nat.mod_eq_of_lt (show cur < srcN + 1 by omega), slots_zero, pushLoop]
  | succ kk ih =>
    intro cur store wp c hcur hk
    have hne : cur ≠ (cur + (kk + 1)) % (srcN + 1) := by
      intro he
      have h0 : (cur + 0) % (srcN + 1) = (cur + (kk + 1)) % (srcN + 1) := by
        rw [Nat.add_zero, Nat.mod_eq_of_lt (show cur < srcN + 1 by omega)]
        exact he
      exact mod_shift_ne cur 0 (kk + 1) (by omega) (by omega) h0
    rw [pushFromIter]
    simp only [hne, if_false]
    rw [slots_cons, Nat.mod_eq_of_lt (show cur < srcN + 1 by omega)]
    by_cases hc : c < M
    · have hnext : iterNext ⟨cur, 0, srcN + 1⟩ = ⟨(cur + 1) % (srcN + 1), 0, srcN + 1⟩ := by
        simp only [iterNext]
        by_cases hge : cur + 1 ≥ srcN + 1
        · have hcN : cur = srcN := by omega
          subst hcN
          simp [hge, Nat.mod_self]
        · rw [if_neg hge, Nat.mod_eq_of_lt (by omega)]
      have hend : ((cur + 1) % (srcN + 1) + kk) % (srcN + 1)
          = (cur + (kk + 1)) % (srcN + 1) := by
        rw [Nat.mod_add_mod]
        congr 1
        omega
      have hih := ih ((cur + 1) % (srcN + 1))
        (store.set wp (srcStore.getD cur default))
        (if wp + 1 > M then 0 else wp + 1) (c + 1)
        (Nat.le_of_lt_succ (Nat.mod_lt _ (by omega))) (by omega)
      rw [hend] at hih
      simp only [hc, dif_pos, hnext, hih, pushLoop, if_pos]
    · simp only [hc, dif_neg, pushLoop, if_neg, Bool.false_eq_true, not_false_eq_true]

/-- Claim C5 (move conservation): with `A` holding `m` elements and `B` empty,
`A.MoveTo(B)` returns `min m Nb`; afterward the two sizes sum to `m` and `B`
holds exactly the oldest `min m Nb` elements of `A`, in order. -/
theorem C5_move_conservation {α : Type} [Inhabited α] {N M : Nat}
    (a : CB α N) (b : CB α M) (ha : Inv a) (hb : Inv b)
    (hbe : GetCurrentSize b = 0) :
    (MoveTo a b).2.2 = min (GetCurrentSize a) M ∧
    GetCurrentSize (MoveTo a b).1 + GetCurrentSize (MoveTo a b).2.1
      = GetCurrentSize a ∧
    contents (MoveTo a b).2.1 = (contents a).take (min (GetCurrentSize a) M) := by
  obtain ⟨halen, harp, hawp, hac, hacur⟩ := ha
  obtain ⟨hblen, hbrp, hbwp, hbc, hbcur⟩ := hb
  simp only [GetCurrentSize] at hbe ⊢
  have hiter := pushFromIter_eq_pushLoop M N a.store a.currentSize a.readPtr
    b.store b.writePtr b.currentSize harp hac
  rw [← hacur] at hiter
  have hbwpc : b.writePtr = b.readPtr % (M + 1) := by
    rw [hbcur, hbe, Nat.add_zero]
  have hpushed := pushLoop_pushed (N := M) (contents a) b.store b.writePtr b.currentSize
  have hlen : (contents a).length = a.currentSize := slots_length N a.store a.readPtr _
  have hposhed2 : (pushLoop M (contents a) b.store b.writePtr b.currentSize).2.2
      = min a.currentSize M := by
    rw [hpushed, hbe, hlen, Nat.sub_zero]
  have hspec := pushLoop_spec M (contents a) b.store b.readPtr 0 hblen (Nat.zero_le M)
  rw [Nat.add_zero, ← hbwpc] at hspec
  obtain ⟨hsl, hsw, hss⟩ := hspec
  rw [hlen, Nat.sub_zero, Nat.zero_add] at hss
  simp only [contents] at hposhed2 hss
  simp only [MoveTo, endIter, beginIter, hiter, PopMany, GetCurrentSize,
    size_update_eq, contents, hposhed2]
  have hclamp : (if min a.currentSize M > a.currentSize then a.currentSize
      else min a.currentSize M) = min a.currentSize M := by
    rw [if_neg (by omega)]
  refine ⟨hclamp, ?_, ?_⟩
  · rw [hclamp, hbe]
    have hminle : min a.currentSize M ≤ a.currentSize := Nat.min_le_left _ _
    omega
  · rw [hbe, Nat.zero_add, hss, slots_zero, List.nil_append]

/-- Witness for C5: `A` of capacity 3 holding `[1,2,3]`, `B` empty of
capacity 2; the move returns `min 3 2 = 2`, the sizes sum to 3, and `B`
holds `[1,2]`. -/
theorem C5_move_conservation_witness :
    Inv (PushMany (mkCB Nat 3) [1, 2, 3]).1 ∧ Inv (mkCB Nat 2) ∧
    GetCurrentSize (mkCB Nat 2) = 0 ∧
    ((MoveTo (PushMany (mkCB Nat 3) [1, 2, 3]).1 (mkCB Nat 2)).2.2
        = min (GetCurrentSize (PushMany (mkCB Nat 3) [1, 2, 3]).1) 2 ∧
     GetCurrentSize (MoveTo (PushMany (mkCB Nat 3) [1, 2, 3]).1 (mkCB Nat 2)).1
        + GetCurrentSize (MoveTo (PushMany (mkCB Nat 3) [1, 2, 3]).1 (mkCB Nat 2)).2.1
        = GetCurrentSize (PushMany (mkCB Nat 3) [1, 2, 3]).1 ∧
     contents (MoveTo (PushMany (mkCB Nat 3) [1, 2, 3]).1 (mkCB Nat 2)).2.1
        = (contents (PushMany (mkCB Nat 3) [1, 2, 3]).1).take
            (min (GetCurrentSize (PushMany (mkCB Nat 3) [1, 2, 3]).1) 2)) :=
  ⟨by decide, by decide, by decide,
    C5_move_conservation (PushMany (mkCB Nat 3) [1, 2, 3]).1 (mkCB Nat 2)
      (by decide) (by decide) (by decide)⟩

/-! ### The `PopMany` wraparound defect (claims C2, C3, C6) -/

/-- A reachable state of a capacity-1 buffer (obtained from a fresh buffer by
`PushOne 5; Pop; PushOne 6`): store `[5, 6]`, `m_readPtr = 1`,
`m_writePtr = 0`, `m_currentSize = 1`. -/
def bugState : CB Nat 1 := (PushOne (Pop (PushOne (mkCB Nat 1) 5).1).1 6).1

/-- Claim C2 is contradicted by the code: on the reachable state `bugState`
(which satisfies the invariant), `PopMany 1` clamps and returns 1 and
decreases the count by 1 as claimed, but leaves `m_readPtr` at 1, whereas
advancing by the clamped amount modulo `N + 1 = 2` yields 0
(`newReadPtr -= size` at circularbuffer.hpp:405 subtracts `size` instead of
`size + 1`).  Consequently a subsequent `PushOne 8; PeekAndPop` delivers the
stale value 6 instead of the only live element 8. -/
theorem C2_popmany_cursor_bug :
    Inv bugState ∧
    (PopMany bugState 1).2 = 1 ∧
    (PopMany bugState 1).1.currentSize = bugState.currentSize - 1 ∧
    (PopMany bugState 1).1.readPtr = 1 ∧
    (bugState.readPtr + (PopMany bugState 1).2) % (1 + 1) = 0 ∧
    (PeekAndPop (PushOne (PopMany bugState 1).1 8).1 0).2 = (true, 6) := by
  decide

/-- Claim C3 is contradicted by the code: `PopMany` does not preserve the
state invariant.  `bugState` satisfies it; after `PopMany 1` the write cursor
(0) differs from `readCursor + count` modulo `N + 1` (which is 1). -/
theorem C3_popmany_breaks_invariant :
    Inv bugState ∧ ¬ Inv (PopMany bugState 1).1 := by
  decide

/-- The buffer used for the C6 counterexample: a fresh capacity-1 buffer
after `PushOne 7; Clear()`, so `m_currentSize = 0` and
`m_readPtr = m_writePtr = 1`. -/
def clearedCB : CB Nat 1 := Clear (PushOne (mkCB Nat 1) 7).1

/-- Claim C6 is contradicted by the code: `Clear` does set `count` to 0 and
`readCursor` to `writeCursor` (so `IsEmpty()` holds), but the subsequent
sequence `PushOne 1; PopMany 1; PushOne 2; PeekAndPop` delivers 1 on the
cleared buffer and 2 on a freshly constructed buffer of the same capacity:
the cleared buffer is not observationally equivalent to a fresh one, because
`PopMany`'s wraparound (circularbuffer.hpp:405) is not translation-invariant. -/
theorem C6_clear_not_fresh :
    clearedCB.currentSize = 0 ∧ clearedCB.readPtr = clearedCB.writePtr ∧
    IsEmpty clearedCB = true ∧
    (PeekAndPop (PushOne (PopMany (PushOne clearedCB 1).1 1).1 2).1 0).2
      = (true, 1) ∧
    (PeekAndPop (PushOne (PopMany (PushOne (mkCB Nat 1) 1).1 1).1 2).1 0).2
      = (true, 2) := by
  decide

end LG
